import Mathlib

/-!
Verification development for the `splitter` repository
(src/split.rs, src/join.rs, src/main.rs).

The source is shallowly embedded:
* file names are `List Char`, file contents are `List Nat` (one `Nat` per byte);
* Rust `u64`/`usize` values are `Nat` with explicit `2 ^ 64` bounds where the
  machine width matters (`usize::from_str` overflow);
* the nonterminating `while` loop of `split_parts` is given an explicit fuel
  parameter, `none` meaning the loop did not finish within the fuel;
* filesystem effects are made explicit: `split` returns the directory name and
  the list of (chunk file name, chunk content) pairs it creates, `join` takes
  the list of (file name, content) pairs it is invoked on, and the result of
  the single scattered `read_vectored` call is a parameter (`none` = the
  syscall failed, `some d` = the syscall reported `d` bytes read).
-/

/-- Errors of the program, one constructor per distinct `Error` message
produced in split.rs / join.rs. -/
inductive Error where
  | nothingToSplit          -- "File length is below split length. Nothing to split."
  | failedReading           -- "Failed reading file."
  | folderExists            -- "Folder {} already exists. ..."
  | invalidTrailingNumber   -- "invalid trailing number"
  | noTrailingNumber        -- "no trailing number found"
  | invalidFilename         -- "Invalid filename: {}"
  | trailingNumberMismatch  -- "Trailing number mismatch. ..."
  | outputAlreadyExists     -- "Failed to create output file. {} already exists."
  deriving DecidableEq, Repr

/-- Result of running a fallible operation that may also panic
(Rust `Result` plus the possibility of an index-out-of-bounds panic). -/
inductive Outcome (α : Type) where
  | ok (a : α)
  | error (e : Error)
  | panic
  deriving DecidableEq, Repr

/-! ## ChunkPlanner: `split_parts` (split.rs) -/

/-- One pass of the inner `for index in 0..parts.len()` loop of `split_parts`.
`parts.len()` is evaluated once when the `for` starts, so the loop walks the
snapshot of the original positions only; writing `parts[index] = half` touches
only the position currently being read, and `parts.push(...)` appends
`half + part % 2` beyond the snapshot in index order.  Hence one pass replaces
each original element `p ≥ split_size` by `p / 2` in place and appends
`p / 2 + p % 2` for each such element, in order. -/
def splitPass (split_size : Nat) (parts : List Nat) : List Nat :=
  (parts.map fun p => if split_size ≤ p then p / 2 else p) ++
    ((parts.filter fun p => split_size ≤ p).map fun p => p / 2 + p % 2)

/-- The `while !parts.iter().all(|part| *part < split_size)` loop of
`split_parts`, with explicit fuel; `none` means the loop has not terminated
within `fuel` iterations. -/
def split_parts_loop (split_size : Nat) : Nat → List Nat → Option (List Nat)
  | 0, _ => none
  | fuel + 1, parts =>
    if parts.all fun p => p < split_size then some parts
    else split_parts_loop split_size fuel (splitPass split_size parts)

/-- `split_parts(initial_part, split_size)` from split.rs, run with the given
fuel: starts from the singleton `vec![initial_part]` and repeats `splitPass`
until every element is `< split_size`. -/
def split_parts_fuel (fuel : Nat) (initial_part split_size : Nat) : Option (List Nat) :=
  split_parts_loop split_size fuel [initial_part]

/-- The value `split_parts` returns when its loop terminates; `initial_part + 1`
iterations are enough whenever the loop terminates at all (the maximum element
drops by at least one per pass while any element is `≥ split_size ≥ 2`). -/
def split_parts (initial_part split_size : Nat) : List Nat :=
  (split_parts_fuel (initial_part + 1) initial_part split_size).getD []

/-! ## Decimal rendering and parsing of indices -/

/-- Decimal digits (most significant first) of `n`, produced with structural
fuel; `natCharsAux n n` is the digit string of `n ≥ 1`. -/
def natCharsAux : Nat → Nat → List Char
  | 0, _ => []
  | fuel + 1, n =>
    if n = 0 then [] else natCharsAux fuel (n / 10) ++ [Nat.digitChar (n % 10)]

/-- Decimal rendering of `n`, as Rust `format!("{}", n)` produces it. -/
def natChars (n : Nat) : List Char :=
  if n = 0 then ['0'] else natCharsAux n n

/-- Numeric value of one decimal digit character. -/
def charToDigit (c : Char) : Nat := c.toNat - 48

/-- Rust `str::parse::<usize>()` (64-bit target): an optional leading `+`,
then one or more decimal digits, rejecting the empty string, non-digits and
values that overflow `usize`. -/
def parseUsize (s : List Char) : Option Nat :=
  let ds := match s with
    | c :: rest => if c = '+' then rest else s
    | [] => s
  if ds.isEmpty then none
  else if ds.all Char.isDigit then
    let v := ds.foldl (fun a c => a * 10 + charToDigit c) 0
    if v < 2 ^ 64 then some v else none
  else none

/-! ## Naming scheme decoder (join.rs) -/

/-- Rust `str::rsplit_once(c)`: splits at the last occurrence of `c`,
returning (part before it, part after it), or `none` if `c` does not occur. -/
def rsplitOnce (c : Char) : List Char → Option (List Char × List Char)
  | [] => none
  | x :: rest =>
    match rsplitOnce c rest with
    | some (before, after) => some (x :: before, after)
    | none => if x = c then some ([], rest) else none

/-- Rust `str::rsplitn(3, c)` collected into a list: the pieces produced from
the right, at most three, the last piece being the unsplit remainder. -/
def rsplitn3 (c : Char) (s : List Char) : List (List Char) :=
  match rsplitOnce c s with
  | none => [s]
  | some (before, last) =>
    match rsplitOnce c before with
    | none => [last, before]
    | some (rest, mid) => [last, mid, rest]

/-- `split_file_name` from join.rs: `rsplitn(3, '-')`, then three `next()`
calls; the third piece (everything before the last two `-`-separated
segments), or `none` when fewer than three pieces exist. -/
def split_file_name (filename : List Char) : Option (List Char) :=
  match rsplitn3 '-' filename with
  | [_, _, rest] => some rest
  | _ => none

/-- `get_trailing_number` from join.rs: `rsplit_once('-')` then
`parse::<usize>()` on the suffix.  (The `path.to_str()` UTF-8 check of the
source is vacuous here because names are already lists of characters.) -/
def get_trailing_number (name : List Char) : Except Error Nat :=
  match rsplitOnce '-' name with
  | some (_, trailing) =>
    match parseUsize trailing with
    | some n => Except.ok n
    | none => Except.error Error.invalidTrailingNumber
  | none => Except.error Error.noTrailingNumber

/-! ## Splitter (split.rs) -/

/-- Cuts `bytes` into consecutive chunks of the lengths listed in `ns`
(the per-buffer view of the scattered read target). -/
def chunksOf : List Nat → List Nat → List (List Nat)
  | [], _ => []
  | n :: ns, bytes => bytes.take n :: chunksOf ns (bytes.drop n)

/-- The chunk-file creation loop of `split`: buffer number `index` (counting
from `k`) is written to a file named `{dir}-{index}` where `dir` is the file
name of the split directory. -/
def nameChunks (dir : List Char) (k : Nat) : List (List Nat) → List (List Char × List Nat)
  | [] => []
  | b :: bs => (dir ++ '-' :: natChars k, b) :: nameChunks dir (k + 1) bs

/-- `split` from split.rs, with the I/O made explicit.  `base` is the source
file's name, `file` its content, `split_size` the limit entered by the user,
`readResult` what the single `read_vectored` call reported (`none` = `Err`,
`some d` = `Ok(d)`, i.e. `d` bytes were placed into the buffers in plan
order; the code discards this count), `dirExists` whether the split directory
already exists.  The outer `Option` is the fuel of the planner loop; the
payload of a successful run is the split directory name together with the
chunk files (name, content) in creation order. -/
def split_core (fuel : Nat) (base : List Char) (file : List Nat) (split_size : Nat)
    (readResult : Option Nat) (dirExists : Bool) :
    Option (Except Error (List Char × List (List Char × List Nat))) :=
  if file.length < split_size then some (Except.error Error.nothingToSplit)
  else
    match split_parts_fuel fuel file.length split_size with
    | none => none
    | some plan =>
      match readResult with
      | none => some (Except.error Error.failedReading)
      | some d =>
        let data := file.take d
        let buffers := chunksOf plan (data ++ List.replicate (plan.sum - data.length) 0)
        let dir := base ++ ('-' :: ['s', 'p', 'l', 'i', 't'])
        if dirExists then some (Except.error Error.folderExists)
        else some (Except.ok (dir, nameChunks dir 1 buffers))

/-! ## Joiner (join.rs) -/

/-- The descriptor-collection loop of `join`: for each input file, decode its
trailing number (the `File { file, trailing_number }` record), failing at the
first undecodable name. -/
def decodeFiles : List (List Char × List Nat) → Except Error (List (Nat × List Nat))
  | [] => Except.ok []
  | (name, content) :: rest =>
    match get_trailing_number name with
    | Except.error e => Except.error e
    | Except.ok n =>
      match decodeFiles rest with
      | Except.error e => Except.error e
      | Except.ok tail => Except.ok ((n, content) :: tail)

/-- Comparison used by `files.sort_unstable_by(|a, b| a.trailing_number.cmp(&b.trailing_number))`. -/
def keyLe (a b : Nat × List Nat) : Prop := a.1 ≤ b.1

/-- Strict version of `keyLe`, used to state uniqueness of the sorted order. -/
def keyLt (a b : Nat × List Nat) : Prop := a.1 < b.1

instance : DecidableRel keyLe := fun a b => Nat.decLe a.1 b.1

instance : DecidableRel keyLt := fun a b => Nat.decLt a.1 b.1

instance : IsTotal (Nat × List Nat) keyLe := ⟨fun a b => Nat.le_total a.1 b.1⟩

instance : IsTrans (Nat × List Nat) keyLe := ⟨fun _ _ _ h h' => Nat.le_trans h h'⟩

instance : IsAntisymm (Nat × List Nat) keyLt :=
  ⟨fun _ _ h h' => absurd h' (Nat.lt_asymm h)⟩

/-- The contiguity check of `join`: `for (index, file) in files.iter().enumerate()`,
failing as soon as `index + 1 != file.trailing_number`; `pos` is the current
value of `index`. -/
def checkContig (pos : Nat) : List (Nat × List Nat) → Bool
  | [] => true
  | (idx, _) :: rest => (pos + 1 == idx) && checkContig (pos + 1) rest

/-- Pairs the elements of a list with consecutive indices starting at `k`
(the shape of the decoded descriptor list of a freshly split chunk set). -/
def indexFrom (k : Nat) : List (List Nat) → List (Nat × List Nat)
  | [] => []
  | b :: bs => (k, b) :: indexFrom (k + 1) bs

/-- `join` from join.rs, with the filesystem made explicit: `files` is the
(name, content) list the paths refer to (all assumed to be existing regular
files), `outputExists` whether `joined-<base>` already exists.  Mirrors the
source: index `path_bufs[0]` (a panic when the vector is empty), derive the
base name from the first file's name, decode every trailing number, sort by
trailing number, check contiguity, create the output file, concatenate the
contents in sorted order.  (`sort_unstable_by` is modelled by insertion sort:
whenever the contiguity check passes the keys are distinct, so every
by-trailing-number sort produces this same list.) -/
def join_core (files : List (List Char × List Nat)) (outputExists : Bool) :
    Outcome (List Char × List Nat) :=
  match files with
  | [] => Outcome.panic
  | first :: _ =>
    match split_file_name first.1 with
    | none => Outcome.error Error.invalidFilename
    | some base =>
      match decodeFiles files with
      | Except.error e => Outcome.error e
      | Except.ok descs =>
        let sorted := List.insertionSort keyLe descs
        if checkContig 0 sorted then
          if outputExists then Outcome.error Error.outputAlreadyExists
          else Outcome.ok (('j' :: 'o' :: 'i' :: 'n' :: 'e' :: 'd' :: '-' :: base),
            (sorted.map Prod.snd).flatten)
        else Outcome.error Error.trailingNumberMismatch

/-- The directory branch of `handle_arg` in main.rs: invoking the program on a
directory collects the entry paths (`get_paths`) and hands them, unfiltered,
to `join`; an empty directory hands `join` the empty list. -/
def handle_arg_dir (entries : List (List Char × List Nat)) (outputExists : Bool) :
    Outcome (List Char × List Nat) :=
  join_core entries outputExists

/-! ## Planner lemmas -/

/-- One pass conserves the sum: an element `p ≥ split_size` contributes
`p / 2` in place plus `p / 2 + p % 2` at the end, which add up to `p`. -/
theorem sum_map_half (s : Nat) (l : List Nat) :
    (l.map fun p => if s ≤ p then p / 2 else p).sum +
      ((l.filter fun p => s ≤ p).map fun p => p / 2 + p % 2).sum = l.sum := by
  induction l with
  | nil => rfl
  | cons p t ih =>
    simp only [List.map_cons, List.sum_cons, List.filter_cons]
    by_cases hp : s ≤ p
    · rw [if_pos hp, if_pos (by simpa using hp)]
      simp only [List.map_cons, List.sum_cons]
      omega
    · rw [if_neg hp, if_neg (by simpa using hp)]
      omega

theorem splitPass_sum (s : Nat) (l : List Nat) : (splitPass s l).sum = l.sum := by
  unfold splitPass
  rw [List.sum_append]
  exact sum_map_half s l

theorem split_parts_loop_sum {s fuel : Nat} {l m : List Nat}
    (h : split_parts_loop s fuel l = some m) : m.sum = l.sum := by
  induction fuel generalizing l with
  | zero => simp [split_parts_loop] at h
  | succ fuel ih =>
    rw [split_parts_loop] at h
    split at h
    · cases h; rfl
    · rw [ih h, splitPass_sum]

/-- Lists all of whose elements are `< 1` sum to `0`. -/
theorem sum_eq_zero_of_all_lt_one {l : List Nat}
    (h : (l.all fun p => p < 1) = true) : l.sum = 0 := by
  induction l with
  | nil => rfl
  | cons p t ih =>
    simp only [List.all_cons, Bool.and_eq_true, decide_eq_true_eq] at h
    simp [List.sum_cons, ih h.2]
    omega

/-- With `split_size = 1` the loop can never stop while the sum is positive:
stopping needs every element `< 1`, but the conserved sum stays positive. -/
theorem split_parts_loop_one_eq_none {l : List Nat} (hsum : 1 ≤ l.sum) :
    ∀ fuel, split_parts_loop 1 fuel l = none := by
  intro fuel
  induction fuel generalizing l with
  | zero => rfl
  | succ fuel ih =>
    rw [split_parts_loop]
    split
    · next h => exact absurd (sum_eq_zero_of_all_lt_one h) (by omega)
    · exact ih (by rw [splitPass_sum]; exact hsum)

/-- Every element of one pass's output is an untouched element `< s` or one of
the two halves of an element of the input that was `≥ s`. -/
theorem mem_splitPass {s q : Nat} {l : List Nat} (h : q ∈ splitPass s l) :
    (∃ p ∈ l, s ≤ p ∧ (q = p / 2 ∨ q = p / 2 + p % 2)) ∨ (q ∈ l ∧ q < s) := by
  unfold splitPass at h
  rcases List.mem_append.1 h with h | h
  · rcases List.mem_map.1 h with ⟨p, hp, hq⟩
    by_cases hs : s ≤ p
    · exact Or.inl ⟨p, hp, hs, Or.inl (by rw [← hq, if_pos hs])⟩
    · rw [if_neg hs] at hq
      exact Or.inr ⟨hq ▸ hp, by omega⟩
  · rcases List.mem_map.1 h with ⟨p, hp, hq⟩
    rcases List.mem_filter.1 hp with ⟨hpl, hps⟩
    exact Or.inl ⟨p, hpl, by simpa using hps, Or.inr hq.symm⟩

/-- Termination of the planner loop for `split_size ≥ 2`: while some element
is `≥ s ≥ 2`, each pass lowers every oversized element strictly, so elements
bounded by `s + fuel` need at most `fuel` further passes. -/
theorem split_parts_loop_terminates {s : Nat} (hs : 2 ≤ s) :
    ∀ fuel (l : List Nat), (∀ p ∈ l, p < s + fuel) →
      ∃ m, split_parts_loop s (fuel + 1) l = some m ∧ ∀ p ∈ m, p < s := by
  intro fuel
  induction fuel with
  | zero =>
    intro l hl
    refine ⟨l, ?_, by simpa using hl⟩
    rw [split_parts_loop, if_pos]
    simpa using hl
  | succ fuel ih =>
    intro l hl
    rw [split_parts_loop]
    split
    · next h => exact ⟨l, rfl, by simpa using h⟩
    · refine ih (splitPass s l) ?_
      intro q hq
      rcases mem_splitPass hq with ⟨p, hpl, hps, hq2⟩ | ⟨_, hqs⟩
      · have := hl p hpl
        omega
      · omega

/-- Passes keep all elements positive when `split_size ≥ 2`. -/
theorem split_parts_loop_pos {s : Nat} (hs : 2 ≤ s) {fuel : Nat} {l m : List Nat}
    (hl : ∀ p ∈ l, 1 ≤ p) (h : split_parts_loop s fuel l = some m) :
    ∀ p ∈ m, 1 ≤ p := by
  induction fuel generalizing l with
  | zero => simp [split_parts_loop] at h
  | succ fuel ih =>
    rw [split_parts_loop] at h
    split at h
    · cases h; exact hl
    · refine ih ?_ h
      intro q hq
      rcases mem_splitPass hq with ⟨p, hpl, hps, hq2⟩ | ⟨hql, _⟩
      · have := hl p hpl
        omega
      · exact hl q hql

/-- More fuel never changes a result the loop already reached. -/
theorem split_parts_loop_mono {s fuel : Nat} {l m : List Nat}
    (h : split_parts_loop s fuel l = some m) :
    ∀ fuel', fuel ≤ fuel' → split_parts_loop s fuel' l = some m := by
  intro fuel' hle
  induction fuel' generalizing fuel l with
  | zero =>
    have hf : fuel = 0 := by omega
    subst hf
    simp [split_parts_loop] at h
  | succ f ih =>
    cases fuel with
    | zero => simp [split_parts_loop] at h
    | succ fuel =>
      rw [split_parts_loop] at h
      rw [split_parts_loop]
      split at h
      · next hc => rw [if_pos hc]; exact h
      · next hc => rw [if_neg hc]; exact ih h (by omega)

/-! ## Decimal digit lemmas -/

theorem digitChar_isDigit {d : Nat} (h : d < 10) : (Nat.digitChar d).isDigit = true := by
  interval_cases d <;> decide

theorem charToDigit_digitChar {d : Nat} (h : d < 10) : charToDigit (Nat.digitChar d) = d := by
  interval_cases d <;> decide

theorem digitChar_ne_plus {d : Nat} (h : d < 10) : Nat.digitChar d ≠ '+' := by
  interval_cases d <;> decide

theorem isDigit_ne_dash {c : Char} (h : c.isDigit = true) : c ≠ '-' := by
  intro hc
  subst hc
  simp [Char.isDigit] at h

theorem natCharsAux_all_digits (fuel n : Nat) :
    ∀ c ∈ natCharsAux fuel n, c.isDigit = true := by
  induction fuel generalizing n with
  | zero => intro c hc; simp [natCharsAux] at hc
  | succ fuel ih =>
    intro c hc
    rw [natCharsAux] at hc
    split at hc
    · simp at hc
    · rcases List.mem_append.1 hc with h | h
      · exact ih _ c h
      · rcases List.mem_singleton.1 h with rfl
        exact digitChar_isDigit (Nat.mod_lt _ (by omega))

theorem natCharsAux_ne_nil {fuel n : Nat} (h1 : 1 ≤ n) (h2 : n ≤ fuel) :
    natCharsAux fuel n ≠ [] := by
  cases fuel with
  | zero => omega
  | succ fuel =>
    rw [natCharsAux, if_neg (by omega)]
    simp

/-- Folding the decimal digits of `n` (most significant first) onto
accumulator `a` yields `a * 10 ^ digits + n`. -/
theorem natCharsAux_foldl (fuel : Nat) :
    ∀ n a, n ≤ fuel →
      (natCharsAux fuel n).foldl (fun a c => a * 10 + charToDigit c) a =
        a * 10 ^ (natCharsAux fuel n).length + n := by
  induction fuel with
  | zero =>
    intro n a hn
    have : n = 0 := by omega
    subst this
    simp [natCharsAux]
  | succ fuel ih =>
    intro n a hn
    rw [natCharsAux]
    by_cases h0 : n = 0
    · subst h0; simp
    · rw [if_neg h0]
      rw [List.foldl_append, List.length_append]
      have hdiv : n / 10 ≤ fuel := by
        have := Nat.div_lt_self (by omega : 0 < n) (by omega : 1 < 10)
        omega
      rw [ih (n / 10) a hdiv]
      simp only [List.foldl_cons, List.foldl_nil, List.length_cons, List.length_nil]
      rw [charToDigit_digitChar (Nat.mod_lt _ (by omega))]
      rw [pow_succ]
      have := Nat.div_add_mod n 10
      ring_nf
      omega

theorem natChars_all_digits (n : Nat) : ∀ c ∈ natChars n, c.isDigit = true := by
  unfold natChars
  split
  · intro c hc; rcases List.mem_singleton.1 hc with rfl; decide
  · exact natCharsAux_all_digits n n

theorem natChars_ne_nil (n : Nat) : natChars n ≠ [] := by
  unfold natChars
  split
  · simp
  · exact natCharsAux_ne_nil (by omega) (by omega)

theorem dash_not_mem_natChars (n : Nat) : '-' ∉ natChars n := by
  intro h
  exact isDigit_ne_dash (natChars_all_digits n '-' h) rfl

/-- Parsing the decimal rendering of `n < 2 ^ 64` recovers `n`. -/
theorem parseUsize_natChars {n : Nat} (h : n < 2 ^ 64) :
    parseUsize (natChars n) = some n := by
  by_cases h0 : n = 0
  · subst h0; decide
  · unfold natChars
    rw [if_neg h0]
    obtain ⟨c, t, hct⟩ : ∃ c t, natCharsAux n n = c :: t := by
      cases hx : natCharsAux n n with
      | nil => exact absurd hx (natCharsAux_ne_nil (by omega) (by omega))
      | cons c t => exact ⟨c, t, rfl⟩
    have hcplus : c ≠ '+' := by
      have hcd : c.isDigit = true :=
        natCharsAux_all_digits n n c (by rw [hct]; exact List.mem_cons_self _ _)
      intro hc
      subst hc
      simp [Char.isDigit] at hcd
    unfold parseUsize
    rw [hct]
    simp only [if_neg hcplus]
    rw [← hct]
    rw [if_neg (by simp [List.isEmpty_iff, natCharsAux_ne_nil (by omega : 1 ≤ n) (le_refl n)])]
    rw [if_pos (by simp only [List.all_eq_true]; exact fun c hc => natCharsAux_all_digits n n c hc)]
    rw [natCharsAux_foldl n n 0 (le_refl n)]
    simp only [Nat.zero_mul, Nat.zero_add]
    rw [if_pos h]

/-! ## Decoder lemmas -/

theorem rsplitOnce_eq_none {c : Char} {l : List Char} (h : c ∉ l) :
    rsplitOnce c l = none := by
  induction l with
  | nil => rfl
  | cons x rest ih =>
    rw [rsplitOnce, ih (fun hm => h (List.mem_cons_of_mem _ hm))]
    rw [if_neg (by intro hx; exact h (by rw [hx]; exact List.mem_cons_self _ _))]

/-- `rsplit_once` cuts at the last occurrence of the separator: if the suffix
`ys` is separator-free, the name `xs ++ c :: ys` splits into `(xs, ys)`. -/
theorem rsplitOnce_append {c : Char} {ys : List Char} (hys : c ∉ ys) (xs : List Char) :
    rsplitOnce c (xs ++ c :: ys) = some (xs, ys) := by
  induction xs with
  | nil =>
    rw [List.nil_append, rsplitOnce, rsplitOnce_eq_none hys, if_pos rfl]
  | cons x rest ih =>
    rw [List.cons_append, rsplitOnce, ih]

/-- Decoding a name of the shape `{stem}-{digits of n}` yields `n`
(for `n` in `usize` range). -/
theorem get_trailing_number_append {n : Nat} (h : n < 2 ^ 64) (stem : List Char) :
    get_trailing_number (stem ++ '-' :: natChars n) = Except.ok n := by
  unfold get_trailing_number
  rw [rsplitOnce_append (dash_not_mem_natChars n) stem]
  simp [parseUsize_natChars h]

/-- `split_file_name` drops exactly the last two `-`-separated segments:
on `xs ++ "-" ++ ys ++ "-" ++ ds` with `ys`, `ds` separator-free it
returns `xs`, whatever `ys` and `ds` contain. -/
theorem split_file_name_append {ys ds : List Char} (hys : '-' ∉ ys) (hds : '-' ∉ ds)
    (xs : List Char) :
    split_file_name (xs ++ '-' :: ys ++ '-' :: ds) = some xs := by
  unfold split_file_name rsplitn3
  rw [show xs ++ '-' :: ys ++ '-' :: ds = (xs ++ '-' :: ys) ++ '-' :: ds by simp]
  rw [rsplitOnce_append hds (xs ++ '-' :: ys)]
  simp [rsplitOnce_append hys xs]

/-- A successful `usize` parse contains no `-` (only an optional `+` and
decimal digits). -/
theorem dash_not_mem_of_parse {s : List Char} {n : Nat} (h : parseUsize s = some n) :
    '-' ∉ s := by
  intro hmem
  unfold parseUsize at h
  rcases s with _ | ⟨c, rest⟩
  · simp at hmem
  · by_cases hc : c = '+'
    · simp only [if_pos hc] at h
      have hrest : '-' ∈ rest := by
        rcases List.mem_cons.1 hmem with h' | h'
        · exact absurd (h' ▸ hc) (by decide)
        · exact h'
      split at h
      · exact Option.noConfusion h
      · split at h
        · next hall =>
          have := (List.all_eq_true.1 hall) '-' hrest
          simp [Char.isDigit] at this
        · exact Option.noConfusion h
    · simp only [if_neg hc] at h
      split at h
      · exact Option.noConfusion h
      · split at h
        · next hall =>
          have := (List.all_eq_true.1 hall) '-' hmem
          simp [Char.isDigit] at this
        · exact Option.noConfusion h

/-! ## Chunking and naming lemmas -/

theorem chunksOf_flatten (ns : List Nat) (bytes : List Nat) :
    (chunksOf ns bytes).flatten = bytes.take ns.sum := by
  induction ns generalizing bytes with
  | nil => simp [chunksOf]
  | cons n ns ih =>
    rw [chunksOf, List.flatten_cons, ih, List.sum_cons, List.take_add bytes n ns.sum]

theorem chunksOf_length (ns : List Nat) (bytes : List Nat) :
    (chunksOf ns bytes).length = ns.length := by
  induction ns generalizing bytes with
  | nil => rfl
  | cons n ns ih => rw [chunksOf, List.length_cons, ih, List.length_cons]

theorem length_le_sum_of_pos {l : List Nat} (h : ∀ p ∈ l, 1 ≤ p) :
    l.length ≤ l.sum := by
  induction l with
  | nil => simp
  | cons p t ih =>
    have hp := h p (List.mem_cons_self _ _)
    have := ih fun q hq => h q (List.mem_cons_of_mem _ hq)
    simp only [List.length_cons, List.sum_cons]
    omega

theorem indexFrom_map_fst (k : Nat) (bs : List (List Nat)) :
    (indexFrom k bs).map Prod.fst = List.range' k bs.length := by
  induction bs generalizing k with
  | nil => rfl
  | cons b bs ih => rw [indexFrom, List.map_cons, List.length_cons, List.range'_succ, ih]

theorem indexFrom_map_snd (k : Nat) (bs : List (List Nat)) :
    (indexFrom k bs).map Prod.snd = bs := by
  induction bs generalizing k with
  | nil => rfl
  | cons b bs ih => rw [indexFrom, List.map_cons, ih]

theorem mem_indexFrom_le {k : Nat} {bs : List (List Nat)} {x : Nat × List Nat}
    (h : x ∈ indexFrom k bs) : k ≤ x.1 := by
  induction bs generalizing k with
  | nil => simp [indexFrom] at h
  | cons b bs ih =>
    rw [indexFrom] at h
    rcases List.mem_cons.1 h with rfl | h
    · exact le_refl _
    · exact Nat.le_of_succ_le (ih h)

theorem indexFrom_sorted_lt (k : Nat) (bs : List (List Nat)) :
    (indexFrom k bs).Sorted keyLt := by
  induction bs generalizing k with
  | nil => exact List.sorted_nil
  | cons b bs ih =>
    rw [indexFrom]
    exact List.Pairwise.cons (fun y hy => Nat.lt_of_succ_le (mem_indexFrom_le hy)) (ih (k + 1))

theorem checkContig_indexFrom (bs : List (List Nat)) :
    ∀ p, checkContig p (indexFrom (p + 1) bs) = true := by
  induction bs with
  | nil => intro p; rfl
  | cons b bs ih =>
    intro p
    rw [indexFrom, checkContig]
    simp only [beq_self_eq_true, Bool.true_and]
    exact ih (p + 1)

theorem nameChunks_map_fst (dir : List Char) (bs : List (List Nat)) :
    ∀ k, (nameChunks dir k bs).map Prod.fst =
      (List.range' k bs.length).map fun i => dir ++ '-' :: natChars i := by
  induction bs with
  | nil => intro k; rfl
  | cons b bs ih =>
    intro k
    rw [nameChunks, List.map_cons, List.length_cons, List.range'_succ, List.map_cons, ih (k + 1)]

theorem mem_nameChunks_name {dir : List Char} {bs : List (List Nat)} {k : Nat}
    {f : List Char × List Nat} (h : f ∈ nameChunks dir k bs) :
    ∃ i, f.1 = dir ++ '-' :: natChars i := by
  induction bs generalizing k with
  | nil => simp [nameChunks] at h
  | cons b bs ih =>
    rw [nameChunks] at h
    rcases List.mem_cons.1 h with rfl | h
    · exact ⟨k, rfl⟩
    · exact ih h

/-- Deriving the base name from any chunk file name `{base}-split-{digits}`
recovers `base`. -/
theorem split_file_name_chunkName (base : List Char) (i : Nat) :
    split_file_name ((base ++ ('-' :: ['s', 'p', 'l', 'i', 't'])) ++ '-' :: natChars i) =
      some base := by
  have h := split_file_name_append
    (show ('-' : Char) ∉ ['s', 'p', 'l', 'i', 't'] by decide)
    (dash_not_mem_natChars i) base
  simpa using h

/-- Decoding the chunk files produced by a split yields the consecutively
indexed contents, provided every index fits in `usize`. -/
theorem decodeFiles_nameChunks (dir : List Char) (bs : List (List Nat)) :
    ∀ k, k + bs.length ≤ 2 ^ 64 →
      decodeFiles (nameChunks dir k bs) = Except.ok (indexFrom k bs) := by
  induction bs with
  | nil => intro k _; rfl
  | cons b bs ih =>
    intro k hk
    rw [nameChunks, decodeFiles]
    rw [get_trailing_number_append (by simp only [List.length_cons] at hk; omega) dir]
    rw [ih (k + 1) (by simp only [List.length_cons] at hk; omega)]
    rfl

/-! ## Join order lemmas -/

/-- Decoding is elementwise, so a permutation of a fully decodable input
decodes to a permutation of the descriptors. -/
theorem decodeFiles_perm {l₁ l₂ : List (List Char × List Nat)} (hperm : l₁.Perm l₂) :
    ∀ d₂, decodeFiles l₂ = Except.ok d₂ →
      ∃ d₁, decodeFiles l₁ = Except.ok d₁ ∧ d₁.Perm d₂ := by
  induction hperm with
  | nil => exact fun d₂ h => ⟨d₂, h, by cases h; exact List.Perm.refl _⟩
  | cons x _ ih =>
    intro d₂ h
    obtain ⟨name, content⟩ := x
    rw [decodeFiles] at h
    split at h
    · exact Except.noConfusion h
    · next n hn =>
      split at h
      · exact Except.noConfusion h
      · next tail htail =>
        cases h
        obtain ⟨t₁, ht₁, hpt⟩ := ih tail htail
        exact ⟨(n, content) :: t₁, by rw [decodeFiles, hn, ht₁], hpt.cons _⟩
  | swap x y l =>
    intro d₂ h
    obtain ⟨xn, xc⟩ := x
    obtain ⟨yn, yc⟩ := y
    rw [decodeFiles] at h
    split at h
    · exact Except.noConfusion h
    · next m hm =>
      split at h
      · exact Except.noConfusion h
      · next tail htail =>
        rw [decodeFiles] at htail
        split at htail
        · exact Except.noConfusion htail
        · next n hn =>
          split at htail
          · exact Except.noConfusion htail
          · next tail' htail' =>
            cases htail
            cases h
            refine ⟨(n, yc) :: (m, xc) :: tail', ?_, List.Perm.swap _ _ _⟩
            rw [decodeFiles, hn, decodeFiles, hm, htail']
  | trans _ _ ih₁ ih₂ =>
    intro d₂ h
    obtain ⟨dm, hdm, hpm⟩ := ih₂ d₂ h
    obtain ⟨d₁, hd₁, hp1⟩ := ih₁ dm hdm
    exact ⟨d₁, hd₁, hp1.trans hpm⟩

/-- A list sorted by trailing number with pairwise distinct trailing numbers
is the unique by-trailing-number sorting of any of its permutations; in
particular `insertionSort keyLe` returns exactly it. -/
theorem insertionSort_eq_of_perm_of_sorted {l m : List (Nat × List Nat)}
    (hperm : l.Perm m) (hm : m.Sorted keyLt) :
    List.insertionSort keyLe l = m := by
  have hs_perm : (List.insertionSort keyLe l).Perm m :=
    (List.perm_insertionSort keyLe l).trans hperm
  have hs_le : (List.insertionSort keyLe l).Sorted keyLe :=
    List.sorted_insertionSort keyLe l
  have hm_nodup : (m.map Prod.fst).Nodup := by
    have : (m.map Prod.fst).Pairwise (· < ·) := List.pairwise_map.2 hm
    exact this.imp Nat.ne_of_lt
  have hs_nodup : ((List.insertionSort keyLe l).map Prod.fst).Nodup :=
    (hs_perm.map Prod.fst).symm.nodup hm_nodup
  have hs_ne : (List.insertionSort keyLe l).Pairwise fun a b => a.1 ≠ b.1 :=
    List.pairwise_map.1 hs_nodup
  have hs_lt : (List.insertionSort keyLe l).Sorted keyLt := by
    have := hs_le.and hs_ne
    exact this.imp fun h => Nat.lt_of_le_of_ne h.1 h.2
  exact List.eq_of_perm_of_sorted hs_perm hs_lt hm

/-! ## Claim theorems -/

/-- C2: for every `total ≥ 0` and `limit ≥ 1`, whenever `split_parts`
returns (under any fuel), the returned sequence sums to `total`. -/
theorem split_parts_sum_conserved {total limit fuel : Nat} {l : List Nat}
    (hlimit : 1 ≤ limit) (h : split_parts_fuel fuel total limit = some l) :
    l.sum = total := by
  have hs := split_parts_loop_sum h
  simpa using hs

theorem split_parts_sum_conserved_witness :
    (1 ≤ 3 ∧ split_parts_fuel 4 10 3 = some [2, 2, 1, 1, 2, 2]) ∧
      ([2, 2, 1, 1, 2, 2] : List Nat).sum = 10 :=
  ⟨⟨by decide, by decide⟩,
    @split_parts_sum_conserved 10 3 4 [2, 2, 1, 1, 2, 2] (by decide) (by decide)⟩

/-- C3 counterexample: at `total = 1`, `limit = 1` the planner loop never
terminates — each pass rewrites an element `1` to `0` and appends a fresh
`1`, so the stop condition (all elements `< 1`) is never reached.  (The Rust
program reaches this state: `split` only rejects `file_len < split_size`, so
a 1-byte file with split size 1 hangs.) -/
theorem split_parts_limit_one_diverges :
    ¬ ∃ fuel l, split_parts_fuel fuel 1 1 = some l := by
  rintro ⟨fuel, l, h⟩
  unfold split_parts_fuel at h
  rw [@split_parts_loop_one_eq_none [1] (by simp) fuel] at h
  exact Option.noConfusion h

/-- C3 amended: the planner terminates for every `total` when `limit ≥ 2`
(fuel `total + 1` suffices), returning a sequence with every element below
`limit`; for `limit = 1` it terminates only in the degenerate case
`total = 0`. -/
theorem split_parts_terminates {total limit : Nat} (h2 : 2 ≤ limit) :
    ∃ l, split_parts_fuel (total + 1) total limit = some l ∧ ∀ p ∈ l, p < limit := by
  refine split_parts_loop_terminates h2 total [total] ?_
  intro p hp
  rcases List.mem_singleton.1 hp with rfl
  omega

theorem split_parts_terminates_witness :
    ∃ l, split_parts_fuel 11 10 3 = some l ∧ ∀ p ∈ l, p < 3 :=
  split_parts_terminates (by decide)

/-- C4: the planner on total 10, limit 3 returns exactly `[2, 2, 1, 1, 2, 2]`:
`[10] → [5, 5] → [2, 2, 3, 3] → [2, 2, 1, 1, 2, 2]`, one snapshot pass per
arrow, halves in place and remainders appended. -/
theorem split_parts_ten_three : split_parts 10 3 = [2, 2, 1, 1, 2, 2] := by decide

/-- C8: decoding `report.csv-split-3` yields base `report.csv` and index 3;
decoding `report.csv` (no `-` at all) fails in both decoder functions with
the naming-scheme (invalid-input) errors. -/
theorem decode_examples :
    split_file_name "report.csv-split-3".toList = some "report.csv".toList ∧
    get_trailing_number "report.csv-split-3".toList = Except.ok 3 ∧
    split_file_name "report.csv".toList = none ∧
    get_trailing_number "report.csv".toList = Except.error Error.noTrailingNumber :=
  ⟨rfl, rfl, rfl, rfl⟩

/-- C9: `join` indexes `path_bufs[0]` before any validation, so the empty
path collection panics (it is not a typed error); `handle_arg` on a
directory passes the directory entries to `join` unfiltered, so an empty
directory reaches this panic. -/
theorem join_empty_panics :
    join_core [] false = Outcome.panic ∧ handle_arg_dir [] false = Outcome.panic :=
  ⟨rfl, rfl⟩

/-- C10: the decoders never compare the middle segment with the literal
`split`: any name `X-Y-n` (`Y` separator-free, `n` a parsable `usize`)
decodes to base `X` and index `n`, whatever `Y` is. -/
theorem decoder_ignores_middle_segment (X Y nds : List Char) (n : Nat)
    (hX : X ≠ []) (hY : '-' ∉ Y) (hn : parseUsize nds = some n) :
    split_file_name (X ++ '-' :: Y ++ '-' :: nds) = some X ∧
    get_trailing_number (X ++ '-' :: Y ++ '-' :: nds) = Except.ok n := by
  have hds := dash_not_mem_of_parse hn
  constructor
  · exact split_file_name_append hY hds X
  · unfold get_trailing_number
    rw [show X ++ '-' :: Y ++ '-' :: nds = (X ++ '-' :: Y) ++ '-' :: nds by simp]
    rw [rsplitOnce_append hds (X ++ '-' :: Y)]
    simp [hn]

theorem decoder_ignores_middle_segment_witness :
    split_file_name ("report.csv".toList ++ '-' :: "foo".toList ++ '-' :: "3".toList) =
        some "report.csv".toList ∧
    get_trailing_number ("report.csv".toList ++ '-' :: "foo".toList ++ '-' :: "3".toList) =
        Except.ok 3 :=
  decoder_ignores_middle_segment _ _ _ 3 (by decide) (by decide) (by decide)

/-- C5, evaluated at the failing input: a 3-byte file `[1, 2, 3]` split with
limit 2 (plan `[1, 1, 1]`) where the scattered read delivers only 2 bytes.
`split` ignores the count returned by `read_vectored`, so instead of failing
with the generic read error it reports success and writes the chunk files,
the unfilled third buffer still holding its zero fill. -/
theorem short_read_still_writes_chunks :
    split_core 4 ['f'] [1, 2, 3] 2 (some 2) false =
      some (Except.ok (['f', '-', 's', 'p', 'l', 'i', 't'],
        [(['f', '-', 's', 'p', 'l', 'i', 't', '-', '1'], [1]),
         (['f', '-', 's', 'p', 'l', 'i', 't', '-', '2'], [2]),
         (['f', '-', 's', 'p', 'l', 'i', 't', '-', '3'], [0])])) := rfl

theorem nameChunks_length (dir : List Char) (bs : List (List Nat)) :
    ∀ k, (nameChunks dir k bs).length = bs.length := by
  induction bs with
  | nil => intro k; rfl
  | cons b bs ih => intro k; rw [nameChunks, List.length_cons, ih (k + 1), List.length_cons]

/-- C6 counterexample: splitting the file named `f` (3 bytes, limit 2) does
not create files `f-1`, `f-2`, `f-3`; the names are built from the split
directory's file name `f-split`, giving `f-split-1`, `f-split-2`,
`f-split-3`. -/
theorem chunk_names_not_base_dash_index :
    (match split_core 4 ['f'] [7, 7, 7] 2 (some 3) false with
      | some (Except.ok (_, chunks)) => chunks.map Prod.fst
      | _ => []) ≠ [['f', '-', '1'], ['f', '-', '2'], ['f', '-', '3']] := by
  decide

/-- C6 amended: every successful split of a file named `B` into `N` chunks
creates the directory `B-split` and, inside it, chunk files named
`B-split-1` … `B-split-N`, the 1-based index being the chunk's position in
the plan order. -/
theorem chunk_names_dir_dash_index (fuel : Nat) (base : List Char) (file : List Nat)
    (split_size : Nat) (readResult : Option Nat) (dirExists : Bool)
    (dir : List Char) (chunks : List (List Char × List Nat))
    (h : split_core fuel base file split_size readResult dirExists =
      some (Except.ok (dir, chunks))) :
    dir = base ++ ('-' :: ['s', 'p', 'l', 'i', 't']) ∧
    chunks.map Prod.fst =
      (List.range' 1 chunks.length).map fun i => dir ++ '-' :: natChars i := by
  unfold split_core at h
  split at h
  · simp at h
  · split at h
    · exact Option.noConfusion h
    · split at h
      · simp at h
      · split at h
        · simp at h
        · next plan hplan d hd =>
          simp only [Option.some.injEq, Except.ok.injEq, Prod.mk.injEq] at h
          obtain ⟨hdir, hchunks⟩ := h
          subst hdir
          subst hchunks
          refine ⟨rfl, ?_⟩
          rw [nameChunks_length, nameChunks_map_fst]

/-- Witness for the amended C6 at the concrete split of file `f` = `[7,7,7]`
with limit 2 and a full read. -/
theorem chunk_names_dir_dash_index_witness :
    ['f', '-', 's', 'p', 'l', 'i', 't'] = ['f'] ++ ('-' :: ['s', 'p', 'l', 'i', 't']) ∧
    ([(['f', '-', 's', 'p', 'l', 'i', 't', '-', '1'], ([7] : List Nat)),
      (['f', '-', 's', 'p', 'l', 'i', 't', '-', '2'], [7]),
      (['f', '-', 's', 'p', 'l', 'i', 't', '-', '3'], [7])].map Prod.fst) =
      (List.range' 1 ([(['f', '-', 's', 'p', 'l', 'i', 't', '-', '1'], ([7] : List Nat)),
        (['f', '-', 's', 'p', 'l', 'i', 't', '-', '2'], [7]),
        (['f', '-', 's', 'p', 'l', 'i', 't', '-', '3'], [7])].length)).map
        fun i => ['f', '-', 's', 'p', 'l', 'i', 't'] ++ '-' :: natChars i :=
  chunk_names_dir_dash_index 4 ['f'] [7, 7, 7] 2 (some 3) false _ _ rfl

/-- C7: with a decodable chunk set (first name decodes to a base, every
trailing number parses), `join` fails with the trailing-number-mismatch
error exactly when the decoded indices, sorted ascending, violate
`index = position + 1` somewhere; the check runs before the output file is
opened, so the result is the same whatever `outputExists` is. -/
theorem join_mismatch_iff (first : List Char × List Nat)
    (rest : List (List Char × List Nat)) (oe : Bool) (base : List Char)
    (descs : List (Nat × List Nat))
    (hbase : split_file_name first.1 = some base)
    (hdec : decodeFiles (first :: rest) = Except.ok descs) :
    (join_core (first :: rest) oe = Outcome.error Error.trailingNumberMismatch ↔
      checkContig 0 (List.insertionSort keyLe descs) = false) := by
  cases hc : checkContig 0 (List.insertionSort keyLe descs)
  · simp [join_core, hbase, hdec, hc]
  · cases oe <;> simp [join_core, hbase, hdec, hc]

/-- Witness for C7: the gap set `{1, 2, 4}` (names `f-split-1`, `f-split-2`,
`f-split-4`) is rejected with the trailing-number-mismatch error. -/
theorem join_mismatch_iff_witness :
    join_core [("f-split-1".toList, [1]), ("f-split-2".toList, [2]),
      ("f-split-4".toList, [3])] false = Outcome.error Error.trailingNumberMismatch :=
  (join_mismatch_iff ("f-split-1".toList, [1])
    [("f-split-2".toList, [2]), ("f-split-4".toList, [3])] false "f".toList
    [(1, [1]), (2, [2]), (4, [3])] rfl rfl).mpr (by decide)

/-- C1 counterexample: at `L = K = 1` (file `[0]`, limit 1) the split never
terminates — the planner loops forever — so no chunk set is ever produced
and no round trip happens, although `L ≥ K ≥ 1` holds. -/
theorem split_limit_one_never_returns :
    ¬ ∃ fuel r, split_core fuel ['f'] [0] 1 (some 1) false = some r := by
  rintro ⟨fuel, r, h⟩
  have hnone : split_parts_fuel fuel ([0] : List Nat).length 1 = none := by
    unfold split_parts_fuel
    exact @split_parts_loop_one_eq_none [([0] : List Nat).length] (by simp) fuel
  unfold split_core at h
  rw [if_neg (by decide)] at h
  rw [hnone] at h
  exact Option.noConfusion h

/-- C1 amended: for every file of length `L` and limit `K` with
`L ≥ K ≥ 2` (file lengths are `u64`, hence `< 2 ^ 64`), splitting succeeds
— fuel `L + 1` suffices and the single scattered read delivers all `L`
bytes — and joining the resulting chunk set, presented in any order,
recreates the file byte for byte.  (For `K = 1 ≤ L` no chunk set is ever
produced; see the counterexample.) -/
theorem split_join_roundtrip (base : List Char) (file : List Nat) (K : Nat)
    (hK2 : 2 ≤ K) (hKL : K ≤ file.length) (h64 : file.length < 2 ^ 64) :
    ∃ dir chunks,
      split_core (file.length + 1) base file K (some file.length) false =
        some (Except.ok (dir, chunks)) ∧
      ∀ inputs, inputs.Perm chunks →
        ∃ outName, join_core inputs false = Outcome.ok (outName, file) := by
  obtain ⟨plan, hplan, hplan_lt⟩ :=
    split_parts_loop_terminates hK2 file.length [file.length]
      (by intro p hp; rcases List.mem_singleton.1 hp with rfl; omega)
  have hplanF : split_parts_fuel (file.length + 1) file.length K = some plan := hplan
  have hsum : plan.sum = file.length := by
    have hs := split_parts_loop_sum hplan
    simpa using hs
  have hpos : ∀ p ∈ plan, 1 ≤ p := by
    refine split_parts_loop_pos hK2 ?_ hplan
    intro p hp
    rcases List.mem_singleton.1 hp with rfl
    omega
  have hplan_ne : plan ≠ [] := by
    intro h0
    rw [h0] at hsum
    simp at hsum
    omega
  have hNsum : plan.length ≤ file.length := by
    have := length_le_sum_of_pos hpos
    omega
  have hbuflen : (chunksOf plan file).length = plan.length := chunksOf_length plan file
  have hflat : (chunksOf plan file).flatten = file := by
    rw [chunksOf_flatten, hsum, List.take_length]
  have hdecode :
      decodeFiles (nameChunks (base ++ ('-' :: ['s', 'p', 'l', 'i', 't'])) 1
          (chunksOf plan file)) =
        Except.ok (indexFrom 1 (chunksOf plan file)) := by
    refine decodeFiles_nameChunks _ _ 1 ?_
    rw [hbuflen]
    omega
  refine ⟨base ++ ('-' :: ['s', 'p', 'l', 'i', 't']),
    nameChunks (base ++ ('-' :: ['s', 'p', 'l', 'i', 't'])) 1 (chunksOf plan file), ?_, ?_⟩
  · unfold split_core
    rw [if_neg (by omega), hplanF]
    simp [List.take_length, hsum]
  · intro inputs hperm
    have hchunks_len :
        (nameChunks (base ++ ('-' :: ['s', 'p', 'l', 'i', 't'])) 1
          (chunksOf plan file)).length = plan.length := by
      rw [nameChunks_length, hbuflen]
    cases inputs with
    | nil =>
      exfalso
      have hlen := hperm.length_eq
      rw [hchunks_len] at hlen
      simp at hlen
      exact hplan_ne (List.length_eq_zero.1 hlen.symm)
    | cons f rest =>
      have hfmem : f ∈ nameChunks (base ++ ('-' :: ['s', 'p', 'l', 'i', 't'])) 1
          (chunksOf plan file) :=
        hperm.subset (List.mem_cons_self _ _)
      obtain ⟨i, hf1⟩ := mem_nameChunks_name hfmem
      have hbase : split_file_name f.1 = some base := by
        rw [hf1]
        exact split_file_name_chunkName base i
      obtain ⟨descs, hdescs, hdperm⟩ :=
        decodeFiles_perm hperm (indexFrom 1 (chunksOf plan file)) hdecode
      have hsorteq : List.insertionSort keyLe descs = indexFrom 1 (chunksOf plan file) :=
        insertionSort_eq_of_perm_of_sorted hdperm (indexFrom_sorted_lt 1 _)
      have hcontig : checkContig 0 (indexFrom 1 (chunksOf plan file)) = true := by
        have hc := checkContig_indexFrom (chunksOf plan file) 0
        simpa using hc
      refine ⟨'j' :: 'o' :: 'i' :: 'n' :: 'e' :: 'd' :: '-' :: base, ?_⟩
      simp only [join_core, hbase, hdescs, hsorteq, hcontig, if_true,
        Bool.false_eq_true, if_false, indexFrom_map_snd, hflat]

/-- Witness for the amended C1: the 3-byte file `f` = `[7, 7, 7]` split with
limit 2 and joined again (in any input order) comes back byte-identical. -/
theorem split_join_roundtrip_witness :
    ∃ dir chunks,
      split_core 4 ['f'] [7, 7, 7] 2 (some 3) false = some (Except.ok (dir, chunks)) ∧
      ∀ inputs, inputs.Perm chunks →
        ∃ outName, join_core inputs false = Outcome.ok (outName, [7, 7, 7]) :=
  split_join_roundtrip ['f'] [7, 7, 7] 2 (by decide) (by decide) (by decide)
